import Mathlib

/-!
Shallow embedding of the binary search tree implementation in
`src/Source.cpp` (struct `Node`, class `BST`), together with proofs of the
specification's claims about it.

A C++ `Node*` is either null or points to a node holding an `int` payload
and two child pointers; we model this as the inductive type `BST.Tree`
(`nil` for the null pointer).  The mutating member functions
`BST::insert`, `BST::remove`, `BST::findMax`, `BST::findMin` rebuild and
return the subtree they are handed, so they embed directly as pure
recursive functions on `Tree`.  Machine `int` is modelled as `Int` (no
arithmetic is performed on payloads, only comparisons, so overflow cannot
occur).  Diagnostic `std::cout` output gated by the `verbose` flag is
modelled as a list of trace events returned alongside the tree.
-/

namespace BST

/-- The node graph reachable from a `Node*`: `nil` models the null
pointer, `node data left right` models a `Node` with payload `data` and
child pointers `left`, `right` (field order as in `struct Node`). -/
inductive Tree where
  | nil : Tree
  | node (data : Int) (left : Tree) (right : Tree) : Tree
deriving DecidableEq, Repr

/-- `!node` test on the modelled pointer. -/
def Tree.isNil : Tree → Bool
  | .nil => true
  | .node _ _ _ => false

/-- In-order traversal of the node graph (left subtree, node, right
subtree).  The source has no such routine, but the spec states its
properties in terms of the in-order value sequence, so we define it as the
observation function. -/
def inorder : Tree → List Int
  | .nil => []
  | .node d l r => inorder l ++ d :: inorder r

/-- `BST::insert(Node* node, int data)` (Source.cpp lines 58–72), with the
verbose output dropped: if the subtree is null a fresh node is created;
otherwise descend left on `data < node->data`, right on
`data > node->data`, and return the node unchanged on equality. -/
def insert : Tree → Int → Tree
  | .nil, data => .node data .nil .nil
  | .node d l r, data =>
    if data < d then .node d (insert l data) r
    else if data > d then .node d l (insert r data)
    else .node d l r

/-- `BST::findMin(Node* node)` (Source.cpp lines 105–108): follow left
pointers while they exist; returns the data of the node reached, or `none`
when called on the null pointer (the C++ returns `nullptr` there). -/
def findMin : Tree → Option Int
  | .nil => none
  | .node d l _ =>
    match l with
    | .nil => some d
    | .node _ _ _ => findMin l

/-- `BST::remove(Node* node, int data)` (Source.cpp lines 75–93).  On a
match: no left child → return the right child; no right child → return
the left child; two children → overwrite the node's data with the in-order
successor `findMin(node->right)->data` and remove that value from the
right subtree.  The `none` branch of the `match` models the null-pointer
dereference `temp->data` that the C++ would perform if `findMin` returned
`nullptr`; it is proved unreachable (claim C10). -/
def remove : Tree → Int → Tree
  | .nil, _ => .nil
  | .node d l r, data =>
    if data < d then .node d (remove l data) r
    else if data > d then .node d l (remove r data)
    else if l.isNil then r
    else if r.isNil then l
    else
      match findMin r with
      | some m => .node m l (remove r m)
      | none => .nil

/-- `BST::findMax(Node* node)` (Source.cpp lines 96–102): `-1` on the
empty tree, otherwise follow right pointers to the rightmost node and
return its data. -/
def findMax : Tree → Int
  | .nil => -1
  | .node d _ r =>
    match r with
    | .nil => d
    | .node _ _ _ => findMax r

/-- A diagnostic line printed by `BST::insert` when `verbose` is set:
`"Insert <d> here."`, `"Go left from <d>"`, `"Go right from <d>"`. -/
inductive Event where
  | insertHere (d : Int)
  | goLeft (d : Int)
  | goRight (d : Int)
deriving DecidableEq, Repr

/-- `BST::insert` with its `verbose`-gated `std::cout` side effect made
explicit: returns the new subtree together with the trace lines emitted,
in output order. -/
def insertV (verbose : Bool) : Tree → Int → Tree × List Event
  | .nil, data =>
    (.node data .nil .nil, if verbose then [.insertHere data] else [])
  | .node d l r, data =>
    if data < d then
      let p := insertV verbose l data
      (.node d p.1 r, (if verbose then [.goLeft d] else []) ++ p.2)
    else if data > d then
      let p := insertV verbose r data
      (.node d l p.1, (if verbose then [.goRight d] else []) ++ p.2)
    else (.node d l r, [])

/-- One menu-level mutating operation on the tree: choice 1 (`add`) or
choice 2 (`remove`). -/
inductive Op where
  | add (v : Int)
  | rem (v : Int)
deriving DecidableEq, Repr

/-- Apply one operation to the root, as `BST::add` / `BST::remove` do:
`root = insert(root, data)` resp. `root = remove(root, data)`. -/
def applyOp (t : Tree) : Op → Tree
  | .add v => insert t v
  | .rem v => remove t v

/-- The tree reached from the empty tree (the freshly constructed `BST`)
by a sequence of `add`/`remove` calls. -/
def run (ops : List Op) : Tree := ops.foldl applyOp .nil

/-- Apply one operation, also accumulating the trace output (only
`insert` prints; `remove` prints nothing). -/
def applyOpV (verbose : Bool) (acc : Tree × List Event) : Op → Tree × List Event
  | .add v =>
    let p := insertV verbose acc.1 v
    (p.1, acc.2 ++ p.2)
  | .rem v => (remove acc.1 v, acc.2)

/-- Run a sequence of operations from the empty tree with the given
`verbose` setting, collecting the trace. -/
def runV (verbose : Bool) (ops : List Op) : Tree × List Event :=
  ops.foldl (applyOpV verbose) (.nil, [])

/-- The observable state of a `BST` object: the `root` pointer and the
public `verbose` flag. -/
structure State where
  root : Tree
  verbose : Bool
deriving DecidableEq, Repr

/-- The freshly constructed object: `BST() : root(nullptr), verbose(true)`. -/
def State.init : State := ⟨.nil, true⟩

/-- `BST::add(int data)`: `root = insert(root, data)`. -/
def State.add (s : State) (data : Int) : State :=
  { s with root := insert s.root data }

/-- `BST::testPerformanceHelper(int numElements)` (Source.cpp lines
129–137): adds a batch of pseudo-random values to the tree.  The values
produced by `rand()` are supplied as the list `randoms`; the timing
measurement is pure observation and is not modelled. -/
def testPerformanceHelper (s : State) (randoms : List Int) : State :=
  randoms.foldl State.add s

/-- `BST::testPerformance()` (Source.cpp lines 45–52): sets
`verbose = false`, runs the four helper stages on the same accumulating
tree, then sets `verbose = true`.  The four lists supply the pseudo-random
values drawn in each stage. -/
def testPerformance (s : State) (r1 r2 r3 r4 : List Int) : State :=
  let s0 := { s with verbose := false }
  let s1 := testPerformanceHelper s0 r1
  let s2 := testPerformanceHelper s1 r2
  let s3 := testPerformanceHelper s2 r3
  let s4 := testPerformanceHelper s3 r4
  { s4 with verbose := true }

/-- Every payload in the tree satisfies `p`. -/
def ForallTree (p : Int → Prop) : Tree → Prop
  | .nil => True
  | .node d l r => ForallTree p l ∧ p d ∧ ForallTree p r

/-- The BST ordering invariant from the spec §3: at every node, all
values in the left subtree are strictly below the node's value and all
values in the right subtree strictly above it. -/
def IsBST : Tree → Prop
  | .nil => True
  | .node d l r =>
    IsBST l ∧ IsBST r ∧ ForallTree (· < d) l ∧ ForallTree (d < ·) r

instance ForallTree.instDecidable (p : Int → Prop) [DecidablePred p] :
    ∀ t, Decidable (ForallTree p t)
  | .nil => .isTrue trivial
  | .node d l r =>
    have : Decidable (ForallTree p l) := ForallTree.instDecidable p l
    have : Decidable (ForallTree p r) := ForallTree.instDecidable p r
    decidable_of_iff (ForallTree p l ∧ p d ∧ ForallTree p r) Iff.rfl

instance IsBST.instDecidable : ∀ t, Decidable (IsBST t)
  | .nil => .isTrue trivial
  | .node d l r =>
    have : Decidable (IsBST l) := IsBST.instDecidable l
    have : Decidable (IsBST r) := IsBST.instDecidable r
    decidable_of_iff
      (IsBST l ∧ IsBST r ∧ ForallTree (· < d) l ∧ ForallTree (d < ·) r)
      Iff.rfl

/-- Scenario A of the spec §8: the tree built by inserting
50, 30, 70, 20, 40, 60, 80 into the empty tree. -/
def scenarioA : Tree :=
  run [.add 50, .add 30, .add 70, .add 20, .add 40, .add 60, .add 80]

example : inorder scenarioA = [20, 30, 40, 50, 60, 70, 80] := by decide
example : findMax scenarioA = 80 := by decide
example : IsBST scenarioA := by decide
example : inorder (remove scenarioA 30) = [20, 40, 50, 60, 70, 80] := by decide
example : inorder (remove scenarioA 80) = [20, 30, 40, 50, 60, 70] := by decide
example : findMax (remove scenarioA 80) = 70 := by decide

@[simp] theorem isNil_nil : Tree.nil.isNil = true := rfl

@[simp] theorem isNil_node (d : Int) (l r : Tree) :
    (Tree.node d l r).isNil = false := rfl

theorem isNil_eq_false {t : Tree} (h : t ≠ .nil) : t.isNil = false := by
  cases t with
  | nil => exact absurd rfl h
  | node d l r => rfl

@[simp] theorem inorder_nil : inorder .nil = [] := rfl

@[simp] theorem inorder_node (d : Int) (l r : Tree) :
    inorder (.node d l r) = inorder l ++ d :: inorder r := rfl

/-- `ForallTree p` is exactly "every value of the in-order traversal
satisfies `p`". -/
theorem forallTree_iff {p : Int → Prop} :
    ∀ t : Tree, ForallTree p t ↔ ∀ x ∈ inorder t, p x
  | .nil => by simp [ForallTree, inorder]
  | .node d l r => by
    simp only [ForallTree, inorder, forallTree_iff l, forallTree_iff r,
      List.forall_mem_append, List.forall_mem_cons]

/-- On equality the source's `insert` returns the node unchanged. -/
theorem insert_self_eq (v : Int) (l r : Tree) :
    insert (.node v l r) v = .node v l r := by
  simp [insert]

/-- The values of `insert t v` are `v` together with the values of `t`
(for every tree, BST or not). -/
theorem mem_inorder_insert :
    ∀ (t : Tree) (v x : Int), x ∈ inorder (insert t v) ↔ x = v ∨ x ∈ inorder t
  | .nil, v, x => by simp [insert, inorder]
  | .node d l r, v, x => by
    rcases lt_trichotomy v d with h1 | h1 | h1
    · simp only [insert, if_pos h1, inorder, List.mem_append, List.mem_cons,
        mem_inorder_insert l v x]
      tauto
    · subst h1
      rw [insert_self_eq]
      simp only [inorder, List.mem_append, List.mem_cons]
      tauto
    · have h1' : ¬ v < d := not_lt.mpr h1.le
      simp only [insert, if_neg h1', gt_iff_lt, if_pos h1, inorder,
        List.mem_append, List.mem_cons, mem_inorder_insert r v x]
      tauto

theorem forallTree_insert {p : Int → Prop} (t : Tree) (v : Int)
    (hv : p v) (h : ForallTree p t) : ForallTree p (insert t v) := by
  rw [forallTree_iff] at h ⊢
  intro x hx
  rcases (mem_inorder_insert t v x).mp hx with rfl | hx
  · exact hv
  · exact h x hx

/-- `insert` preserves the BST ordering invariant. -/
theorem isBST_insert : ∀ (t : Tree) (v : Int), IsBST t → IsBST (insert t v)
  | .nil, v, _ => by simp [insert, IsBST, ForallTree]
  | .node d l r, v, h => by
    obtain ⟨hl, hr, hbl, hbr⟩ := h
    rcases lt_trichotomy v d with h1 | h1 | h1
    · simp only [insert, if_pos h1]
      exact ⟨isBST_insert l v hl, hr, forallTree_insert l v h1 hbl, hbr⟩
    · subst h1
      rw [insert_self_eq]
      exact ⟨hl, hr, hbl, hbr⟩
    · have h1' : ¬ v < d := not_lt.mpr h1.le
      simp only [insert, if_neg h1', gt_iff_lt, if_pos h1]
      exact ⟨hl, isBST_insert r v hr, hbl, forallTree_insert r v h1 hbr⟩

/-- Inserting the same value twice is the same as inserting it once
(as trees, hence also on traversals); holds for every tree. -/
theorem insert_insert_self : ∀ (t : Tree) (v : Int),
    insert (insert t v) v = insert t v
  | .nil, v => by simp [insert]
  | .node d l r, v => by
    rcases lt_trichotomy v d with h1 | h1 | h1
    · simp only [insert, if_pos h1, insert_insert_self l v]
    · subst h1
      rw [insert_self_eq, insert_self_eq]
    · have h1' : ¬ v < d := not_lt.mpr h1.le
      simp only [insert, if_neg h1', gt_iff_lt, if_pos h1,
        insert_insert_self r v]

/-- On a BST, inserting a value that is already present changes nothing
at all. -/
theorem insert_eq_of_mem :
    ∀ (t : Tree) (v : Int), IsBST t → v ∈ inorder t → insert t v = t
  | .node d l r, v, h, hv => by
    obtain ⟨hl, hr, hbl, hbr⟩ := h
    simp only [inorder, List.mem_append, List.mem_cons] at hv
    rcases lt_trichotomy v d with h1 | h1 | h1
    · have hvl : v ∈ inorder l := by
        rcases hv with hv | hv | hv
        · exact hv
        · exact absurd hv (ne_of_lt h1)
        · exact absurd ((forallTree_iff r).mp hbr v hv) (not_lt.mpr h1.le)
      simp only [insert, if_pos h1, insert_eq_of_mem l v hl hvl]
    · subst h1
      exact insert_self_eq v l r
    · have h1' : ¬ v < d := not_lt.mpr h1.le
      have hvr : v ∈ inorder r := by
        rcases hv with hv | hv | hv
        · exact absurd ((forallTree_iff l).mp hbl v hv) (not_lt.mpr h1.le)
        · exact absurd hv.symm (ne_of_lt h1)
        · exact hv
      simp only [insert, if_neg h1', gt_iff_lt, if_pos h1,
        insert_eq_of_mem r v hr hvr]

/-- Inserting a value that is absent adds exactly one node (for every
tree, BST or not). -/
theorem length_inorder_insert_of_not_mem :
    ∀ (t : Tree) (v : Int), v ∉ inorder t →
      (inorder (insert t v)).length = (inorder t).length + 1
  | .nil, v, _ => by simp [insert, inorder]
  | .node d l r, v, h => by
    simp only [inorder, List.mem_append, List.mem_cons, not_or] at h
    obtain ⟨hvl, hvd, hvr⟩ := h
    rcases lt_trichotomy v d with h1 | h1 | h1
    · simp only [insert, if_pos h1, inorder, List.length_append,
        List.length_cons, length_inorder_insert_of_not_mem l v hvl]
      omega
    · exact absurd h1 hvd
    · have h1' : ¬ v < d := not_lt.mpr h1.le
      simp only [insert, if_neg h1', gt_iff_lt, if_pos h1, inorder,
        List.length_append, List.length_cons,
        length_inorder_insert_of_not_mem r v hvr]
      omega

/-- Case equation: `insert` descends left on a smaller value. -/
theorem insert_lt {v d : Int} (l r : Tree) (h : v < d) :
    insert (.node d l r) v = .node d (insert l v) r := by
  simp only [insert, if_pos h]

/-- Case equation: `insert` descends right on a larger value. -/
theorem insert_gt {v d : Int} (l r : Tree) (h : d < v) :
    insert (.node d l r) v = .node d l (insert r v) := by
  simp only [insert, if_neg (not_lt.mpr h.le), gt_iff_lt, if_pos h]

/-- Case equation: `remove` descends left on a smaller value. -/
theorem remove_lt {v d : Int} (l r : Tree) (h : v < d) :
    remove (.node d l r) v = .node d (remove l v) r := by
  simp only [remove, if_pos h]

/-- Case equation: `remove` descends right on a larger value. -/
theorem remove_gt {v d : Int} (l r : Tree) (h : d < v) :
    remove (.node d l r) v = .node d l (remove r v) := by
  simp only [remove, if_neg (not_lt.mpr h.le), gt_iff_lt, if_pos h]

/-- Case equation: a matched node with no left child is replaced by its
right child. -/
theorem remove_eq_left_nil (d : Int) (r : Tree) :
    remove (.node d .nil r) d = r := by
  simp [remove]

/-- Case equation: a matched node with a left child but no right child is
replaced by its left child. -/
theorem remove_eq_right_nil (d : Int) (l : Tree) (hl : l ≠ .nil) :
    remove (.node d l .nil) d = l := by
  simp [remove, isNil_eq_false hl]

/-- Case equation: a matched node with two children receives the in-order
successor's value, which is then removed from the right subtree only. -/
theorem remove_eq_two_child (d m : Int) (l r : Tree) (hl : l ≠ .nil)
    (hr : r ≠ .nil) (hm : findMin r = some m) :
    remove (.node d l r) d = .node m l (remove r m) := by
  simp [remove, isNil_eq_false hl, isNil_eq_false hr, hm]

/-- `findMin` returns a node whenever the subtree it is handed is
non-null. -/
theorem findMin_isSome : ∀ t : Tree, t ≠ .nil → ∃ m, findMin t = some m := by
  intro t
  induction t with
  | nil => intro h; exact absurd rfl h
  | node d l r ihl ihr =>
    intro _
    cases l with
    | nil => exact ⟨d, rfl⟩
    | node d' l' r' =>
      obtain ⟨m, hm⟩ := ihl (by simp)
      exact ⟨m, by simp only [findMin]; exact hm⟩

/-- The value `findMin` returns is a value of the tree. -/
theorem findMin_mem : ∀ t : Tree, ∀ m : Int, findMin t = some m → m ∈ inorder t := by
  intro t
  induction t with
  | nil => intro m hm; exact absurd hm (by simp [findMin])
  | node d l r ihl ihr =>
    intro m hm
    cases l with
    | nil =>
      simp only [findMin, Option.some.injEq] at hm
      subst hm
      simp [inorder]
    | node d' l' r' =>
      simp only [findMin] at hm
      have h2 := ihl m hm
      rw [inorder_node]
      exact List.mem_append.mpr (Or.inl h2)

/-- On a BST, the value `findMin` returns is a lower bound of the whole
subtree. -/
theorem findMin_le : ∀ t : Tree, IsBST t → ∀ m : Int, findMin t = some m →
    ∀ x ∈ inorder t, m ≤ x := by
  intro t
  induction t with
  | nil => intro _ m hm; exact absurd hm (by simp [findMin])
  | node d l r ihl ihr =>
    rintro ⟨hl, hr, hbl, hbr⟩ m hm x hx
    simp only [inorder, List.mem_append, List.mem_cons] at hx
    cases l with
    | nil =>
      simp only [findMin, Option.some.injEq] at hm
      subst hm
      rcases hx with hx | hx | hx
      · exact absurd hx (by simp [inorder])
      · exact hx.ge
      · exact ((forallTree_iff r).mp hbr x hx).le
    | node d' l' r' =>
      simp only [findMin] at hm
      have hmem : m ∈ inorder (.node d' l' r') := findMin_mem _ m hm
      have hmd : m < d := (forallTree_iff _).mp hbl m hmem
      rcases hx with hx | hx | hx
      · exact ihl hl m hm x hx
      · subst hx; exact hmd.le
      · exact (hmd.trans ((forallTree_iff r).mp hbr x hx)).le

/-- Every value of `remove t v` is a value of `t` (for every tree). -/
theorem mem_of_mem_remove : ∀ (t : Tree) (v x : Int),
    x ∈ inorder (remove t v) → x ∈ inorder t := by
  intro t
  induction t with
  | nil => intro v x hx; simp [remove] at hx
  | node d l r ihl ihr =>
    intro v x hx
    rcases lt_trichotomy v d with h1 | h1 | h1
    · rw [remove_lt l r h1, inorder_node] at hx
      rw [inorder_node]
      rcases List.mem_append.mp hx with hx | hx
      · exact List.mem_append.mpr (Or.inl (ihl v x hx))
      · exact List.mem_append.mpr (Or.inr hx)
    · subst h1
      cases l with
      | nil =>
        rw [remove_eq_left_nil] at hx
        rw [inorder_node]
        exact List.mem_append.mpr (Or.inr (List.mem_cons_of_mem v hx))
      | node dl ll lr =>
        cases r with
        | nil =>
          rw [remove_eq_right_nil v _ (by simp)] at hx
          rw [inorder_node]
          exact List.mem_append.mpr (Or.inl hx)
        | node dr rl rr =>
          obtain ⟨m, hm⟩ := findMin_isSome (.node dr rl rr) (by simp)
          rw [remove_eq_two_child v m _ _ (by simp) (by simp) hm,
            inorder_node] at hx
          rw [inorder_node]
          rcases List.mem_append.mp hx with hx | hx
          · exact List.mem_append.mpr (Or.inl hx)
          · rcases List.mem_cons.mp hx with hx | hx
            · subst hx
              exact List.mem_append.mpr
                (Or.inr (List.mem_cons_of_mem v (findMin_mem _ x hm)))
            · exact List.mem_append.mpr
                (Or.inr (List.mem_cons_of_mem v (ihr m x hx)))
    · rw [remove_gt l r h1, inorder_node] at hx
      rw [inorder_node]
      rcases List.mem_append.mp hx with hx | hx
      · exact List.mem_append.mpr (Or.inl hx)
      · rcases List.mem_cons.mp hx with hx | hx
        · exact List.mem_append.mpr (Or.inr (List.mem_cons.mpr (Or.inl hx)))
        · exact List.mem_append.mpr
            (Or.inr (List.mem_cons_of_mem d (ihr v x hx)))

theorem forallTree_remove {p : Int → Prop} (t : Tree) (v : Int)
    (h : ForallTree p t) : ForallTree p (remove t v) := by
  rw [forallTree_iff] at h ⊢
  exact fun x hx => h x (mem_of_mem_remove t v x hx)

/-- On a BST, the removed value is gone from the traversal. -/
theorem not_mem_remove : ∀ (t : Tree) (v : Int), IsBST t →
    v ∉ inorder (remove t v) := by
  intro t
  induction t with
  | nil => intro v _; simp [remove]
  | node d l r ihl ihr =>
    rintro v ⟨hl, hr, hbl, hbr⟩ hx
    have Hbl := (forallTree_iff l).mp hbl
    have Hbr := (forallTree_iff r).mp hbr
    rcases lt_trichotomy v d with h1 | h1 | h1
    · rw [remove_lt l r h1, inorder_node] at hx
      rcases List.mem_append.mp hx with hx | hx
      · exact ihl v hl hx
      · rcases List.mem_cons.mp hx with hx | hx
        · exact absurd hx (ne_of_lt h1)
        · exact absurd (Hbr v hx) (not_lt.mpr h1.le)
    · subst h1
      cases l with
      | nil =>
        rw [remove_eq_left_nil] at hx
        exact absurd (Hbr v hx) (lt_irrefl v)
      | node dl ll lr =>
        cases r with
        | nil =>
          rw [remove_eq_right_nil v _ (by simp)] at hx
          exact absurd (Hbl v hx) (lt_irrefl v)
        | node dr rl rr =>
          obtain ⟨m, hm⟩ := findMin_isSome (.node dr rl rr) (by simp)
          rw [remove_eq_two_child v m _ _ (by simp) (by simp) hm,
            inorder_node] at hx
          have hvm : v < m := Hbr m (findMin_mem _ m hm)
          rcases List.mem_append.mp hx with hx | hx
          · exact absurd (Hbl v hx) (lt_irrefl v)
          · rcases List.mem_cons.mp hx with hx | hx
            · exact absurd hx (ne_of_lt hvm)
            · exact absurd (Hbr v (mem_of_mem_remove _ m v hx)) (lt_irrefl v)
    · rw [remove_gt l r h1, inorder_node] at hx
      rcases List.mem_append.mp hx with hx | hx
      · exact absurd (Hbl v hx) (not_lt.mpr h1.le)
      · rcases List.mem_cons.mp hx with hx | hx
        · exact absurd hx.symm (ne_of_lt h1)
        · exact ihr v hr hx

/-- `remove` preserves the BST ordering invariant. -/
theorem isBST_remove : ∀ (t : Tree) (v : Int), IsBST t → IsBST (remove t v) := by
  intro t
  induction t with
  | nil => intro v _; simp [remove, IsBST]
  | node d l r ihl ihr =>
    rintro v ⟨hl, hr, hbl, hbr⟩
    rcases lt_trichotomy v d with h1 | h1 | h1
    · rw [remove_lt l r h1]
      exact ⟨ihl v hl, hr, forallTree_remove l v hbl, hbr⟩
    · subst h1
      cases l with
      | nil => rw [remove_eq_left_nil]; exact hr
      | node dl ll lr =>
        cases r with
        | nil => rw [remove_eq_right_nil v _ (by simp)]; exact hl
        | node dr rl rr =>
          obtain ⟨m, hm⟩ := findMin_isSome (.node dr rl rr) (by simp)
          rw [remove_eq_two_child v m _ _ (by simp) (by simp) hm]
          have hvm : v < m := (forallTree_iff _).mp hbr m (findMin_mem _ m hm)
          refine ⟨hl, ihr m hr, ?_, ?_⟩
          · rw [forallTree_iff]
            intro x hx
            exact ((forallTree_iff _).mp hbl x hx).trans hvm
          · rw [forallTree_iff]
            intro x hx
            have hmx : m ≤ x :=
              findMin_le _ hr m hm x (mem_of_mem_remove _ m x hx)
            rcases lt_or_eq_of_le hmx with h2 | h2
            · exact h2
            · subst h2
              exact absurd hx (not_mem_remove _ m hr)
    · rw [remove_gt l r h1]
      exact ⟨hl, ihr v hr, hbl, forallTree_remove r v hbr⟩

/-- Removing a value that is absent leaves the tree unchanged (for every
tree). -/
theorem remove_eq_of_not_mem : ∀ (t : Tree) (v : Int), v ∉ inorder t →
    remove t v = t := by
  intro t
  induction t with
  | nil => intro v _; rfl
  | node d l r ihl ihr =>
    intro v h
    simp only [inorder_node, List.mem_append, List.mem_cons, not_or] at h
    obtain ⟨hvl, hvd, hvr⟩ := h
    rcases lt_trichotomy v d with h1 | h1 | h1
    · rw [remove_lt l r h1, ihl v hvl]
    · exact absurd h1 hvd
    · rw [remove_gt l r h1, ihr v hvr]

/-- Inserting an absent value and then removing it restores the original
tree exactly (for every tree). -/
theorem remove_insert_of_not_mem : ∀ (t : Tree) (v : Int), v ∉ inorder t →
    remove (insert t v) v = t := by
  intro t
  induction t with
  | nil =>
    intro v _
    rw [insert]
    exact remove_eq_left_nil v .nil
  | node d l r ihl ihr =>
    intro v h
    simp only [inorder_node, List.mem_append, List.mem_cons, not_or] at h
    obtain ⟨hvl, hvd, hvr⟩ := h
    rcases lt_trichotomy v d with h1 | h1 | h1
    · rw [insert_lt l r h1, remove_lt (insert l v) r h1, ihl v hvl]
    · exact absurd h1 hvd
    · rw [insert_gt l r h1, remove_gt l (insert r v) h1, ihr v hvr]

/-- The BST ordering invariant makes the in-order traversal strictly
increasing. -/
theorem sorted_inorder : ∀ t : Tree, IsBST t → (inorder t).Sorted (· < ·) := by
  intro t
  induction t with
  | nil => intro _; simp
  | node d l r ihl ihr =>
    rintro ⟨hl, hr, hbl, hbr⟩
    rw [inorder_node]
    show List.Pairwise (· < ·) (inorder l ++ d :: inorder r)
    rw [List.pairwise_append, List.pairwise_cons]
    refine ⟨ihl hl, ⟨fun y hy => (forallTree_iff r).mp hbr y hy, ihr hr⟩, ?_⟩
    intro x hx y hy
    have hxd : x < d := (forallTree_iff l).mp hbl x hx
    rcases List.mem_cons.mp hy with rfl | hy
    · exact hxd
    · exact hxd.trans ((forallTree_iff r).mp hbr y hy)

theorem isBST_applyOp (t : Tree) (op : Op) (h : IsBST t) :
    IsBST (applyOp t op) := by
  cases op with
  | add v => exact isBST_insert t v h
  | rem v => exact isBST_remove t v h

theorem isBST_foldl : ∀ (ops : List Op) (t : Tree), IsBST t →
    IsBST (ops.foldl applyOp t)
  | [], _, h => h
  | op :: ops, t, h => isBST_foldl ops (applyOp t op) (isBST_applyOp t op h)

/-- Every tree reachable from the empty tree by `add`/`remove` calls
satisfies the BST ordering invariant. -/
theorem isBST_run (ops : List Op) : IsBST (run ops) :=
  isBST_foldl ops .nil trivial

/-- `findMax` of a non-empty tree is a value of the tree (the rightmost
node's value); no BST assumption needed. -/
theorem findMax_mem : ∀ t : Tree, t ≠ .nil → findMax t ∈ inorder t := by
  intro t
  induction t with
  | nil => intro h; exact absurd rfl h
  | node d l r ihl ihr =>
    intro _
    cases r with
    | nil =>
      simp only [findMax, inorder_node]
      exact List.mem_append.mpr (Or.inr (List.mem_cons_self d _))
    | node dr rl rr =>
      have h2 := ihr (by simp)
      simp only [findMax, inorder_node]
      exact List.mem_append.mpr (Or.inr (List.mem_cons_of_mem d h2))

/-- On a BST, `findMax` bounds every value of the tree from above. -/
theorem le_findMax : ∀ t : Tree, IsBST t → ∀ x ∈ inorder t, x ≤ findMax t := by
  intro t
  induction t with
  | nil => intro _ x hx; simp at hx
  | node d l r ihl ihr =>
    rintro ⟨hl, hr, hbl, hbr⟩ x hx
    rw [inorder_node] at hx
    cases r with
    | nil =>
      simp only [findMax]
      rcases List.mem_append.mp hx with hx | hx
      · exact ((forallTree_iff l).mp hbl x hx).le
      · rcases List.mem_cons.mp hx with rfl | hx
        · exact le_refl x
        · simp at hx
    | node dr rl rr =>
      simp only [findMax]
      have hdm : d < findMax (.node dr rl rr) :=
        (forallTree_iff _).mp hbr _ (findMax_mem _ (by simp))
      rcases List.mem_append.mp hx with hx | hx
      · exact (((forallTree_iff l).mp hbl x hx).trans hdm).le
      · rcases List.mem_cons.mp hx with rfl | hx
        · exact hdm.le
        · exact ihr hr x hx

/-- The tree built by `insertV` is the tree built by `insert`: verbose
tracing does not change the result. -/
theorem insertV_fst : ∀ (b : Bool) (t : Tree) (v : Int),
    (insertV b t v).1 = insert t v
  | b, .nil, v => by simp [insertV, insert]
  | b, .node d l r, v => by
    rcases lt_trichotomy v d with h1 | h1 | h1
    · simp only [insertV, insert, if_pos h1, insertV_fst b l v]
    · subst h1
      simp [insertV, insert]
    · have h1' : ¬ v < d := not_lt.mpr h1.le
      simp only [insertV, insert, if_neg h1', gt_iff_lt, if_pos h1,
        insertV_fst b r v]

theorem applyOpV_fst (b : Bool) (acc : Tree × List Event) (op : Op) :
    (applyOpV b acc op).1 = applyOp acc.1 op := by
  cases op with
  | add v => simp [applyOpV, applyOp, insertV_fst]
  | rem v => rfl

theorem foldlV_fst : ∀ (b : Bool) (ops : List Op) (acc : Tree × List Event),
    (ops.foldl (applyOpV b) acc).1 = ops.foldl applyOp acc.1
  | _, [], _ => rfl
  | b, op :: ops, acc => by
    rw [List.foldl_cons, List.foldl_cons, foldlV_fst b ops, applyOpV_fst]

/-- The resulting tree of a run is independent of the verbose flag. -/
theorem runV_fst (b : Bool) (ops : List Op) : (runV b ops).1 = run ops := by
  rw [runV, run, foldlV_fst]

/-- `State.add` never touches the `verbose` flag. -/
theorem verbose_testPerformanceHelper :
    ∀ (randoms : List Int) (s : State),
      (testPerformanceHelper s randoms).verbose = s.verbose
  | [], s => rfl
  | a :: as, s => by
    rw [testPerformanceHelper, List.foldl_cons,
      ← testPerformanceHelper, verbose_testPerformanceHelper as]
    rfl

/-- `testPerformance` always leaves the `verbose` flag set to `true`
(regardless of its value before the call). -/
theorem verbose_testPerformance (s : State) (r1 r2 r3 r4 : List Int) :
    (testPerformance s r1 r2 r3 r4).verbose = true := rfl

/-- C1: every tree reachable from the empty tree by any sequence of
insert and remove operations satisfies the BST ordering invariant (left
subtree values strictly below each node's value, right subtree values
strictly above), equivalently its in-order traversal is strictly
increasing. -/
theorem C1_reachable_trees_satisfy_bst_invariant (ops : List Op) :
    IsBST (run ops) ∧ (inorder (run ops)).Sorted (· < ·) :=
  ⟨isBST_run ops, sorted_inorder _ (isBST_run ops)⟩

/-- C2: insert adds a value exactly when it is absent — the value set
grows by `v`, an insert of a present value is a silent no-op, an insert of
an absent value adds exactly one node, and inserting twice yields the same
in-order traversal as inserting once. -/
theorem C2_insert_adds_iff_absent_and_idempotent (t : Tree) (v : Int)
    (h : IsBST t) :
    (∀ x, x ∈ inorder (insert t v) ↔ x = v ∨ x ∈ inorder t) ∧
    (v ∈ inorder t → insert t v = t) ∧
    (v ∉ inorder t →
      (inorder (insert t v)).length = (inorder t).length + 1) ∧
    inorder (insert (insert t v) v) = inorder (insert t v) :=
  ⟨fun x => mem_inorder_insert t v x,
   fun hv => insert_eq_of_mem t v h hv,
   fun hv => length_inorder_insert_of_not_mem t v hv,
   by rw [insert_insert_self]⟩

/-- C2 witness: the claim at the Scenario A tree with the absent value
25. -/
theorem C2_witness :
    IsBST scenarioA ∧
    ((∀ x, x ∈ inorder (insert scenarioA 25) ↔
        x = 25 ∨ x ∈ inorder scenarioA) ∧
     (25 ∈ inorder scenarioA → insert scenarioA 25 = scenarioA) ∧
     ((25 : Int) ∉ inorder scenarioA →
       (inorder (insert scenarioA 25)).length =
         (inorder scenarioA).length + 1) ∧
     inorder (insert (insert scenarioA 25) 25) =
       inorder (insert scenarioA 25)) :=
  ⟨by decide, C2_insert_adds_iff_absent_and_idempotent scenarioA 25 (by decide)⟩

/-- C3: `findMaximum` returns the sentinel -1 on the empty tree, and on a
non-empty tree returns a value of the tree that bounds every value from
above (the largest value present, the rightmost node's value). -/
theorem C3_findMax_largest_or_sentinel (t : Tree) (h : IsBST t) :
    (t = .nil → findMax t = -1) ∧
    (t ≠ .nil → findMax t ∈ inorder t ∧ ∀ x ∈ inorder t, x ≤ findMax t) :=
  ⟨fun ht => by subst ht; rfl,
   fun ht => ⟨findMax_mem t ht, le_findMax t h⟩⟩

/-- C3 witness: the claim at the Scenario A tree. -/
theorem C3_witness :
    IsBST scenarioA ∧
    ((scenarioA = .nil → findMax scenarioA = -1) ∧
     (scenarioA ≠ .nil → findMax scenarioA ∈ inorder scenarioA ∧
       ∀ x ∈ inorder scenarioA, x ≤ findMax scenarioA)) :=
  ⟨by decide, C3_findMax_largest_or_sentinel scenarioA (by decide)⟩

/-- C4: removing a value that is not present leaves the tree completely
unchanged, for every tree and every absent value. -/
theorem C4_remove_absent_is_noop (t : Tree) (v : Int) (h : v ∉ inorder t) :
    remove t v = t :=
  remove_eq_of_not_mem t v h

/-- C4 witness: the claim at the Scenario A tree with the absent value
25. -/
theorem C4_witness :
    (25 : Int) ∉ inorder scenarioA ∧ remove scenarioA 25 = scenarioA :=
  ⟨by decide, C4_remove_absent_is_noop scenarioA 25 (by decide)⟩

/-- C5: when remove matches a node with two children it copies the
in-order successor (the minimum of the right subtree) into the node and
removes that value from the right subtree only; the traversal of the
result is strictly increasing and no longer contains the removed value;
in particular removing 30 from the Scenario A tree gives the traversal
[20, 40, 50, 60, 70, 80]. -/
theorem C5_remove_two_children (d m : Int) (l r : Tree)
    (h : IsBST (.node d l r)) (hl : l ≠ .nil) (hr : r ≠ .nil)
    (hm : findMin r = some m) :
    remove (.node d l r) d = .node m l (remove r m) ∧
    (inorder (remove (.node d l r) d)).Sorted (· < ·) ∧
    d ∉ inorder (remove (.node d l r) d) ∧
    inorder (remove scenarioA 30) = [20, 40, 50, 60, 70, 80] :=
  ⟨remove_eq_two_child d m l r hl hr hm,
   sorted_inorder _ (isBST_remove _ d h),
   not_mem_remove _ d h,
   by decide⟩

/-- C5 witness: the claim at the two-child node obtained when removing 30
from the Scenario A tree (children 20 and 40, successor 40). -/
theorem C5_witness :
    IsBST (.node 30 (.node 20 .nil .nil) (.node 40 .nil .nil)) ∧
    (Tree.node 20 .nil .nil) ≠ .nil ∧
    (Tree.node 40 .nil .nil) ≠ .nil ∧
    findMin (.node 40 .nil .nil) = some 40 ∧
    (remove (.node 30 (.node 20 .nil .nil) (.node 40 .nil .nil)) 30 =
        .node 40 (.node 20 .nil .nil) (remove (.node 40 .nil .nil) 40) ∧
     (inorder (remove (.node 30 (.node 20 .nil .nil)
        (.node 40 .nil .nil)) 30)).Sorted (· < ·) ∧
     (30 : Int) ∉ inorder (remove (.node 30 (.node 20 .nil .nil)
        (.node 40 .nil .nil)) 30) ∧
     inorder (remove scenarioA 30) = [20, 40, 50, 60, 70, 80]) :=
  ⟨by decide, by decide, by decide, by decide,
   C5_remove_two_children 30 40 (.node 20 .nil .nil) (.node 40 .nil .nil)
     (by decide) (by decide) (by decide) (by decide)⟩

/-- C6: inserting an absent value and immediately removing it yields a
tree whose in-order traversal (indeed, whose entire structure) equals the
one before the insert. -/
theorem C6_insert_then_remove_roundtrip (t : Tree) (v : Int)
    (h : v ∉ inorder t) :
    remove (insert t v) v = t ∧
    inorder (remove (insert t v) v) = inorder t :=
  ⟨remove_insert_of_not_mem t v h, by rw [remove_insert_of_not_mem t v h]⟩

/-- C6 witness: the claim at the Scenario A tree with the absent value
25. -/
theorem C6_witness :
    (25 : Int) ∉ inorder scenarioA ∧
    (remove (insert scenarioA 25) 25 = scenarioA ∧
     inorder (remove (insert scenarioA 25) 25) = inorder scenarioA) :=
  ⟨by decide, C6_insert_then_remove_roundtrip scenarioA 25 (by decide)⟩

/-- C7: a matched node with no left child is replaced by its right child
and a matched node with no right child by its left child; in particular
removing the leaf 80 from the Scenario A tree yields the traversal
[20, 30, 40, 50, 60, 70] and maximum 70. -/
theorem C7_remove_one_child_cases (v : Int) (l r : Tree) (hl : l ≠ .nil) :
    remove (.node v .nil r) v = r ∧
    remove (.node v l .nil) v = l ∧
    inorder (remove scenarioA 80) = [20, 30, 40, 50, 60, 70] ∧
    findMax (remove scenarioA 80) = 70 :=
  ⟨remove_eq_left_nil v r, remove_eq_right_nil v l hl, by decide, by decide⟩

/-- C7 witness: the claim at value 30 with a leaf left child 20 and right
child 40. -/
theorem C7_witness :
    (Tree.node 20 .nil .nil) ≠ .nil ∧
    (remove (.node 30 .nil (.node 40 .nil .nil)) 30 = .node 40 .nil .nil ∧
     remove (.node 30 (.node 20 .nil .nil) .nil) 30 = .node 20 .nil .nil ∧
     inorder (remove scenarioA 80) = [20, 30, 40, 50, 60, 70] ∧
     findMax (remove scenarioA 80) = 70) :=
  ⟨by decide,
   C7_remove_one_child_cases 30 (.node 20 .nil .nil) (.node 40 .nil .nil)
     (by decide)⟩

/-- C8 counterexample: `testPerformance` does not restore an arbitrary
prior verbose value — with the flag `false` before the call, it is `true`
(not `false`) afterwards, because the code unconditionally ends with
`verbose = true`. -/
theorem C8_counterexample :
    ¬ ((testPerformance ⟨Tree.nil, false⟩ [] [] [] []).verbose =
        (⟨Tree.nil, false⟩ : State).verbose) := by decide

/-- C8 amended: after `testPerformance` returns, the verbose flag equals
`true`; hence it equals the prior value exactly in the case the prior
value was `true` — the only value the program can reach at a call site,
since the constructor initializes the flag to `true`. -/
theorem C8_amended_verbose_true_after (s : State) (r1 r2 r3 r4 : List Int) :
    (testPerformance s r1 r2 r3 r4).verbose = true ∧
    (s.verbose = true →
      (testPerformance s r1 r2 r3 r4).verbose = s.verbose) :=
  ⟨verbose_testPerformance s r1 r2 r3 r4,
   fun hv => by rw [verbose_testPerformance, hv]⟩

/-- C8 witness: the amended claim at the freshly constructed object. -/
theorem C8_witness :
    (testPerformance State.init [] [] [] []).verbose = true ∧
    (State.init.verbose = true →
      (testPerformance State.init [] [] [] []).verbose =
        State.init.verbose) :=
  C8_amended_verbose_true_after State.init [] [] [] []

/-- C9: the verbose flag only gates diagnostic output and never alters
results: any operation sequence run with verbose `true` and with verbose
`false` produces identical resulting trees, both equal to the untraced
run. -/
theorem C9_verbose_does_not_affect_results (ops : List Op) :
    (runV true ops).1 = (runV false ops).1 ∧ (runV true ops).1 = run ops :=
  ⟨by rw [runV_fst, runV_fst], runV_fst true ops⟩

/-- C10: in the two-child branch of remove the right subtree is
non-empty, so `findMin` on it always returns a node — the successor value
`m` exists, the match takes the `some` branch, and the modelled
null-dereference branch is unreachable. -/
theorem C10_findMin_never_null_in_two_child_branch (d : Int) (l r : Tree)
    (hl : l ≠ .nil) (hr : r ≠ .nil) :
    ∃ m, findMin r = some m ∧
      remove (.node d l r) d = .node m l (remove r m) := by
  obtain ⟨m, hm⟩ := findMin_isSome r hr
  exact ⟨m, hm, remove_eq_two_child d m l r hl hr hm⟩

/-- C10 witness: the claim at the two-child node with children 20 and
40. -/
theorem C10_witness :
    (Tree.node 20 .nil .nil) ≠ .nil ∧
    (Tree.node 40 .nil .nil) ≠ .nil ∧
    (∃ m, findMin (.node 40 .nil .nil) = some m ∧
      remove (.node 30 (.node 20 .nil .nil) (.node 40 .nil .nil)) 30 =
        .node m (.node 20 .nil .nil) (remove (.node 40 .nil .nil) m)) :=
  ⟨by decide, by decide,
   C10_findMin_never_null_in_two_child_branch 30 (.node 20 .nil .nil)
     (.node 40 .nil .nil) (by decide) (by decide)⟩

end BST
